import Mathlib

/-!
# pInk-compressor: verification of the concurrent conversion pipeline

Shallow embedding of `src/compressor.go` (the current program: `run`,
`worker`, `convert`, `parseArgs`, `confirmExecution`, `isImage`,
`hasCommand`, `printStats`).  Go strings are modelled as Lean `String`
(paths are ASCII in all claims), `int64` sizes as `Int` (file sizes never
approach 2^63, so overflow is immaterial), and the filesystem / external
encoder as an explicit environment of oracles.  The worker pool's
concurrency is modelled by quantifying over all interleavings of the job
multiset: each `Stats` field is updated only through `atomic.AddInt64`,
so the final value of every field is the initial value plus the sum of
the per-job deltas, independent of the schedule; an interleaving is
therefore represented by an arbitrary permutation of the job list.
The `sync.Mutex` around the ffmpeg invocation is modelled by a labelled
transition system over worker phases.
-/

/-! ## Go string/path primitives used by the program -/

/-- `filepath.Ext`: suffix beginning at the final dot in the final
slash-separated element, empty if there is no dot.  Implemented by
scanning the reversed character list, as the Go source does from the
right end. -/
def extRev : List Char → List Char → String
  | [], _ => ""
  | c :: rest, acc =>
    if c = '.' then String.mk (c :: acc)
    else if c = '/' then ""
    else extRev rest (c :: acc)

def goExt (s : String) : String := extRev s.data.reverse []

/-- `strings.HasPrefix`, on the character lists (Go compares bytes; all
names in this development are ASCII, where the two coincide). -/
def strStartsWith (s pre : String) : Bool := pre.data.isPrefixOf s.data

def strEndsWith (s suf : String) : Bool := suf.data.isSuffixOf s.data

def strDropRight (s : String) (n : Nat) : String :=
  String.mk (s.data.take (s.data.length - n))

/-- `strings.ToLower`, character-wise (ASCII-faithful). -/
def toLowerStr (s : String) : String := String.mk (s.data.map Char.toLower)

/-- `unicode.IsSpace` for the whitespace characters a terminal line can
carry. -/
def isSpaceChar (c : Char) : Bool := c = ' ' || c = '\t' || c = '\n' || c = '\r'

/-- `strings.TrimSpace`: drop leading and trailing whitespace. -/
def trimStr (s : String) : String :=
  String.mk (((s.data.dropWhile isSpaceChar).reverse.dropWhile isSpaceChar).reverse)

/-- `strings.TrimSuffix`: drop `suf` from the end of `s` when present. -/
def trimSuffix (s suf : String) : String :=
  if strEndsWith s suf then strDropRight s suf.data.length else s

/-- `filepath.Base`: last element of the path after the final slash. -/
def baseRev : List Char → List Char → String
  | [], acc => String.mk acc
  | c :: rest, acc => if c = '/' then String.mk acc else baseRev rest (c :: acc)

def goBase (p : String) : String :=
  if p = "" then "." else baseRev p.data.reverse []

/-- `filepath.Join` of two components (paths in this development never
carry trailing separators, so joining is concatenation with `/`). -/
def joinPath (a b : String) : String := a ++ "/" ++ b

/-! ## Data model (`Config`, `Job`, `Stats`, directory entries) -/

def outputDir : String := "compressed"

structure Config where
  WorkDir : String
  Quality : Int
  Skip : Bool
  Replace : Bool
deriving DecidableEq, Repr

structure Job where
  Source : String
  Dest : String
deriving DecidableEq, Repr

@[ext]
structure Stats where
  Total : Int
  Converted : Int
  Failed : Int
  SizeBefore : Int
  SizeAfter : Int
deriving DecidableEq, Repr

def Stats.zero : Stats := ⟨0, 0, 0, 0, 0⟩

/-- One `os.ReadDir` entry: its name and whether it is a directory. -/
structure DirEntry where
  name : String
  isDir : Bool
deriving DecidableEq, Repr

/-- `isImage` from the source: switch on `strings.ToLower(filepath.Ext(name))`. -/
def isImage (name : String) : Bool :=
  let e := toLowerStr (goExt name)
  e = ".png" || e = ".jpg" || e = ".jpeg" || e = ".gif" || e = ".avif"

/-- Destination file name: `strings.TrimSuffix(name, filepath.Ext(name)) + ".webp"`. -/
def destName (name : String) : String :=
  trimSuffix name (goExt name) ++ ".webp"

/-- Destination path chosen in `run`: beside the source in replace mode,
inside the `compressed` subdirectory otherwise. -/
def destPath (cfg : Config) (name : String) : String :=
  if cfg.Replace then joinPath cfg.WorkDir (destName name)
  else joinPath (joinPath cfg.WorkDir outputDir) (destName name)

/-- The job-building loop of `run`: skip directories, skip names starting
with a dot, skip non-images, otherwise append a `Job`. -/
def buildJobs (cfg : Config) : List DirEntry → List Job
  | [] => []
  | e :: rest =>
    if e.isDir then buildJobs cfg rest
    else if strStartsWith e.name "." then buildJobs cfg rest
    else if !isImage e.name then buildJobs cfg rest
    else
      { Source := joinPath cfg.WorkDir e.name, Dest := destPath cfg e.name }
        :: buildJobs cfg rest

/-- The job built for an eligible entry name. -/
def mkJob (cfg : Config) (e : DirEntry) : Job :=
  { Source := joinPath cfg.WorkDir e.name, Dest := destPath cfg e.name }

/-- Eligibility as the specification words it: a non-directory entry whose
name does not start with a dot and whose extension, lower-cased, is one of
png, jpg, jpeg, gif, avif. -/
def eligibleSpec (e : DirEntry) : Bool :=
  !e.isDir && !(strStartsWith e.name ".") &&
    (let x := toLowerStr (goExt e.name)
     x = ".png" || x = ".jpg" || x = ".jpeg" || x = ".gif" || x = ".avif")

/-! ## Worker semantics

A `JobRun` is a job together with the environment's responses to the three
external calls the worker body makes for it: `os.Stat(job.Source)`
(`none` on error, otherwise the size), the success of `convert`, and
`os.Stat(job.Dest)` after a successful conversion. -/

structure JobRun where
  job : Job
  statSrc : Option Int
  convertOk : Bool
  statDst : Option Int
deriving DecidableEq, Repr

/-- One iteration of the `worker` loop, acting on the shared `Stats`:
`Total` is incremented, the source size is added when the stat succeeds,
then either `Failed` is incremented (convert error, `continue`) or the
destination size is added when its stat succeeds and `Converted` is
incremented. -/
def processJob (r : JobRun) (s : Stats) : Stats :=
  let s1 := { s with Total := s.Total + 1 }
  let s2 := match r.statSrc with
    | some sz => { s1 with SizeBefore := s1.SizeBefore + sz }
    | none => s1
  if !r.convertOk then
    { s2 with Failed := s2.Failed + 1 }
  else
    let s3 := match r.statDst with
      | some sz => { s2 with SizeAfter := s2.SizeAfter + sz }
      | none => s2
    { s3 with Converted := s3.Converted + 1 }

/-- Final `Stats` after the pool has processed the runs in the order of
the list.  Quantifying over permutations of the list covers every
schedule of the pool: each field is touched only by `atomic.AddInt64`,
so its final value is the sum of per-run deltas in any order. -/
def poolStats (l : List JobRun) : Stats :=
  l.foldl (fun s r => processJob r s) Stats.zero

/-- Externally visible per-job actions of the `worker` body, in program
order. -/
inductive Event where
  | statSource (path : String)
  | encode (src dst : String) (ok : Bool)
  | statDest (path : String)
  | removeSource (path : String)
  | reportOk (srcBase dstBase : String)
  | reportFail (srcBase : String)
  | mkdirOutput (path : String)
deriving DecidableEq, Repr

/-- Action trace of one `worker` iteration: stat the source, run
`convert`; on error log the failure (with the base name) and continue;
on success stat the destination, remove the source in replace mode, and
print the per-file completion line. -/
def jobTrace (cfg : Config) (r : JobRun) : List Event :=
  [Event.statSource r.job.Source, Event.encode r.job.Source r.job.Dest r.convertOk] ++
    if !r.convertOk then [Event.reportFail (goBase r.job.Source)]
    else
      [Event.statDest r.job.Dest] ++
        (if cfg.Replace then [Event.removeSource r.job.Source] else []) ++
        [Event.reportOk (goBase r.job.Source) (goBase r.job.Dest)]

/-- Concatenated traces of a list of runs (one canonical schedule). -/
def poolTrace (cfg : Config) (l : List JobRun) : List Event :=
  (l.map (jobTrace cfg)).flatten

/-! ## The external-encoder adapter `convert`

`convert` locks `ffmpegMutex`, defers the unlock, runs the ffmpeg
command, and returns the trimmed stderr text (when nonempty) or the raw
run error on failure.  The deferred unlock runs on every return path, so
the lock trace of a call is `[lock, invoke, unlock]` whether or not the
invocation succeeds. -/

structure InvokeOutcome where
  runOk : Bool
  stderr : String
  runErrMsg : String
deriving DecidableEq, Repr

inductive LockEv where
  | lock
  | invoke
  | unlock
deriving DecidableEq, Repr

def convert (o : InvokeOutcome) : Except String Unit × List LockEv :=
  ( if o.runOk then Except.ok ()
    else if o.stderr.data.length > 0 then Except.error (trimStr o.stderr)
    else Except.error o.runErrMsg,
    [LockEv.lock, LockEv.invoke, LockEv.unlock] )

/-! ## `confirmExecution` and `run` -/

/-- `confirmExecution`: read a line (`none` models a read error, which
returns false); trim, lower-case, and accept exactly "s" or "sim". -/
def confirmExecution (resp : Option String) : Bool :=
  match resp with
  | none => false
  | some r =>
    let r := trimStr (toLowerStr r)
    r = "s" || r = "sim"

/-- Environment of `run`: presence of ffmpeg on the path, the
`os.ReadDir` result (`none` = error), whether `os.MkdirAll` succeeds,
the stdin line offered to the confirmation prompt, and the per-path
oracles feeding the workers. -/
structure Env where
  ffmpegPresent : Bool
  entries : Option (List DirEntry)
  mkdirOk : Bool
  confirmResp : Option String
  statSize : String → Option Int
  convertRuns : String → String → Bool
  statAfter : String → Option Int

/-- The run of one job as determined by the environment. -/
def jobRun (env : Env) (j : Job) : JobRun :=
  { job := j, statSrc := env.statSize j.Source,
    convertOk := env.convertRuns j.Source j.Dest,
    statDst := env.statAfter j.Dest }

inductive RunResult where
  | ok
  | err (msg : String)
deriving DecidableEq, Repr

/-- `main` exits 1 when `run` returns an error and 0 otherwise. -/
def exitCode : RunResult → Nat
  | RunResult.ok => 0
  | RunResult.err _ => 1

/-- The `run` function: check ffmpeg, read the directory, build the job
list, fail when it is empty, create the output directory when not in
replace mode, then (unless skipped) preview and ask for confirmation —
cancelling returns nil — and finally run the pool to completion.  The
returned list is the trace of filesystem-mutating and report actions,
in program order along the canonical (width-1) schedule. -/
def runModel (cfg : Config) (env : Env) : List Event × RunResult :=
  if !env.ffmpegPresent then ([], RunResult.err "ffmpeg não encontrado no sistema")
  else
    match env.entries with
    | none => ([], RunResult.err "Falha ao ler diretório")
    | some entries =>
      let jobs := buildJobs cfg entries
      if jobs.isEmpty then
        ([], RunResult.err "Nenhum arquivo elegível para conversão encontrado")
      else
        let mkEv : List Event :=
          if !cfg.Replace then [Event.mkdirOutput (joinPath cfg.WorkDir outputDir)]
          else []
        if !cfg.Replace && !env.mkdirOk then
          (mkEv, RunResult.err "Falha ao criar pasta de saída")
        else if !cfg.Skip && !confirmExecution env.confirmResp then
          (mkEv, RunResult.ok)
        else
          (mkEv ++ poolTrace cfg (jobs.map (jobRun env)), RunResult.ok)

/-! ## The `ffmpegMutex` serializer as a transition system

Each worker, per `convert` call, is idle, waiting on `ffmpegMutex.Lock`,
or inside the call (between `Lock` returning and the deferred `Unlock`).
`sync.Mutex.Lock` returns only when the lock is free; the deferred
`Unlock` fires on both return paths of `convert`, so the release step is
enabled whatever the invocation outcome was. -/

inductive Phase where
  | idle
  | waiting
  | inCall
deriving DecidableEq, Repr

structure MuState (n : Nat) where
  locked : Bool
  phase : Fin n → Phase

def MuState.init (n : Nat) : MuState n := ⟨false, fun _ => Phase.idle⟩

inductive MuStep {n : Nat} : MuState n → MuState n → Prop where
  | callConvert (s : MuState n) (i : Fin n) :
      s.phase i = Phase.idle →
      MuStep s ⟨s.locked, Function.update s.phase i Phase.waiting⟩
  | acquire (s : MuState n) (i : Fin n) :
      s.phase i = Phase.waiting → s.locked = false →
      MuStep s ⟨true, Function.update s.phase i Phase.inCall⟩
  | release (s : MuState n) (i : Fin n) (invokeOk : Bool) :
      s.phase i = Phase.inCall →
      MuStep s ⟨false, Function.update s.phase i Phase.idle⟩

inductive MuReachable {n : Nat} : MuState n → Prop where
  | init : MuReachable (MuState.init n)
  | step {s t : MuState n} : MuReachable s → MuStep s t → MuReachable t

/-- The inductive invariant: the lock is held whenever some worker is
inside the invocation, and at most one worker is inside. -/
def MutexInv {n : Nat} (s : MuState n) : Prop :=
  (∀ i, s.phase i = Phase.inCall → s.locked = true) ∧
    (∀ i j, s.phase i = Phase.inCall → s.phase j = Phase.inCall → i = j)

/-! ## Filesystem contents model (for destination collisions)

Contents indexed by path: `applyEvent` interprets the worker trace.  A
successful encode writes the encoder output for the source (ffmpeg is
passed `-y`, so an existing destination is overwritten); a source removal
deletes the path.  `produce src` is the opaque content the encoder
produces from `src`. -/

def applyEvent (produce : String → Int) (fs : String → Option Int) :
    Event → (String → Option Int)
  | Event.encode src dst ok =>
    if ok then fun q => if q = dst then some (produce src) else fs q else fs
  | Event.removeSource p => fun q => if q = p then none else fs q
  | _ => fs

def applyTrace (produce : String → Int) (fs : String → Option Int)
    (l : List Event) : String → Option Int :=
  l.foldl (applyEvent produce) fs

/-! ## Per-field deltas of one worker iteration

Every `Stats` field is updated only by `atomic.AddInt64`, so the pool's
final value of a field is the sum of per-run deltas, whatever the
interleaving of the workers. -/

def dTotal (_ : JobRun) : Int := 1

def dConv (r : JobRun) : Int := if r.convertOk then 1 else 0

def dFail (r : JobRun) : Int := if r.convertOk then 0 else 1

def dBefore (r : JobRun) : Int := r.statSrc.getD 0

def dAfter (r : JobRun) : Int :=
  if r.convertOk then r.statDst.getD 0 else 0

theorem processJob_eq (r : JobRun) (s : Stats) :
    processJob r s =
      ⟨s.Total + dTotal r, s.Converted + dConv r, s.Failed + dFail r,
       s.SizeBefore + dBefore r, s.SizeAfter + dAfter r⟩ := by
  rcases r with ⟨j, sSrc, ok, sDst⟩
  rcases sSrc with _ | szb <;> cases ok <;> rcases sDst with _ | sza <;>
    simp [processJob, dTotal, dConv, dFail, dBefore, dAfter]

theorem foldl_processJob (l : List JobRun) (s : Stats) :
    l.foldl (fun s r => processJob r s) s =
      ⟨s.Total + (l.map dTotal).sum, s.Converted + (l.map dConv).sum,
       s.Failed + (l.map dFail).sum, s.SizeBefore + (l.map dBefore).sum,
       s.SizeAfter + (l.map dAfter).sum⟩ := by
  induction l generalizing s with
  | nil => simp
  | cons a t ih =>
    rw [List.foldl_cons, ih, processJob_eq]
    simp [add_assoc]

theorem poolStats_eq (l : List JobRun) :
    poolStats l =
      ⟨(l.map dTotal).sum, (l.map dConv).sum, (l.map dFail).sum,
       (l.map dBefore).sum, (l.map dAfter).sum⟩ := by
  simp [poolStats, foldl_processJob, Stats.zero]

theorem sum_dTotal (l : List JobRun) : (l.map dTotal).sum = (l.length : Int) := by
  induction l with
  | nil => simp
  | cons a t ih => simp [dTotal, ih]; omega

theorem sum_dConv_add_dFail (l : List JobRun) :
    (l.map dConv).sum + (l.map dFail).sum = (l.length : Int) := by
  induction l with
  | nil => simp
  | cons a t ih =>
    cases h : a.convertOk
    · simp [dConv, dFail, h]
      omega
    · simp [dConv, dFail, h]
      omega

theorem sum_dFail_count (l : List JobRun) :
    (l.map dFail).sum = ((l.filter fun r => !r.convertOk).length : Int) := by
  induction l with
  | nil => simp
  | cons a t ih =>
    cases h : a.convertOk
    · simp [dFail, h, List.filter_cons, ih]
      omega
    · simp [dFail, h, List.filter_cons, ih]

/-! ## The mutex invariant -/

theorem mutexInv_init (n : Nat) : MutexInv (MuState.init n) := by
  constructor
  · intro i h
    simp [MuState.init] at h
  · intro i j hi _
    simp [MuState.init] at hi

theorem mutexInv_step {n : Nat} {s t : MuState n}
    (hs : MutexInv s) (hstep : MuStep s t) : MutexInv t := by
  obtain ⟨h1, h2⟩ := hs
  cases hstep with
  | callConvert i hi =>
    refine ⟨?_, ?_⟩
    · intro k hk
      replace hk : Function.update s.phase i Phase.waiting k = Phase.inCall := hk
      show s.locked = true
      by_cases hki : k = i
      · subst hki
        rw [Function.update_same] at hk
        exact absurd hk (by decide)
      · rw [Function.update_noteq hki] at hk
        exact h1 k hk
    · intro k j hk hj
      replace hk : Function.update s.phase i Phase.waiting k = Phase.inCall := hk
      replace hj : Function.update s.phase i Phase.waiting j = Phase.inCall := hj
      by_cases hki : k = i
      · subst hki
        rw [Function.update_same] at hk
        exact absurd hk (by decide)
      · by_cases hji : j = i
        · subst hji
          rw [Function.update_same] at hj
          exact absurd hj (by decide)
        · rw [Function.update_noteq hki] at hk
          rw [Function.update_noteq hji] at hj
          exact h2 k j hk hj
  | acquire i hi hl =>
    refine ⟨fun k _ => rfl, ?_⟩
    intro k j hk hj
    replace hk : Function.update s.phase i Phase.inCall k = Phase.inCall := hk
    replace hj : Function.update s.phase i Phase.inCall j = Phase.inCall := hj
    by_cases hki : k = i
    · by_cases hji : j = i
      · rw [hki, hji]
      · rw [Function.update_noteq hji] at hj
        have hcontra := h1 j hj
        rw [hl] at hcontra
        exact absurd hcontra (by decide)
    · rw [Function.update_noteq hki] at hk
      have hcontra := h1 k hk
      rw [hl] at hcontra
      exact absurd hcontra (by decide)
  | release i invokeOk hi =>
    refine ⟨?_, ?_⟩
    · intro k hk
      exfalso
      replace hk : Function.update s.phase i Phase.idle k = Phase.inCall := hk
      by_cases hki : k = i
      · subst hki
        rw [Function.update_same] at hk
        exact absurd hk (by decide)
      · rw [Function.update_noteq hki] at hk
        exact hki (h2 k i hk hi)
    · intro k j hk hj
      exfalso
      replace hk : Function.update s.phase i Phase.idle k = Phase.inCall := hk
      by_cases hki : k = i
      · subst hki
        rw [Function.update_same] at hk
        exact absurd hk (by decide)
      · rw [Function.update_noteq hki] at hk
        exact hki (h2 k i hk hi)


theorem mutexInv_reachable {n : Nat} {s : MuState n}
    (h : MuReachable s) : MutexInv s := by
  induction h with
  | init => exact mutexInv_init n
  | step _ hstep ih => exact mutexInv_step ih hstep

/-! ## Concrete fixtures used by witnesses -/

def rOk : JobRun := ⟨⟨"/d/a.png", "/d/compressed/a.webp"⟩, some 100, true, some 40⟩

def rOk2 : JobRun := ⟨⟨"/d/b.jpg", "/d/compressed/b.webp"⟩, some 50, true, some 20⟩

def rBad : JobRun := ⟨⟨"/d/b.jpg", "/d/compressed/b.webp"⟩, some 50, false, none⟩

def muAfterCall : MuState 2 :=
  ⟨false, Function.update (MuState.init 2).phase 0 Phase.waiting⟩

def muInCall : MuState 2 :=
  ⟨true, Function.update muAfterCall.phase 0 Phase.inCall⟩

/-! ## Claims -/

/-- C1: for every job set of size K, after the worker pool has fully
completed (all workers joined, i.e. along any interleaving `l` of the
job set `runs`), the final `Stats` satisfy
`Converted + Failed = K = Total`. -/
theorem pool_counts_complete (runs l : List JobRun) (hperm : l.Perm runs) :
    (poolStats l).Converted + (poolStats l).Failed = (runs.length : Int) ∧
      (poolStats l).Total = (runs.length : Int) := by
  have hlen : l.length = runs.length := hperm.length_eq
  rw [poolStats_eq]
  constructor
  · exact (sum_dConv_add_dFail l).trans (by rw [hlen])
  · exact (sum_dTotal l).trans (by rw [hlen])

theorem pool_counts_complete_witness :
    (poolStats [rBad, rOk]).Converted + (poolStats [rBad, rOk]).Failed =
        (([rOk, rBad] : List JobRun).length : Int) ∧
      (poolStats [rBad, rOk]).Total = (([rOk, rBad] : List JobRun).length : Int) :=
  pool_counts_complete [rOk, rBad] [rBad, rOk] (List.Perm.swap rOk rBad [])

/-- C2: in every reachable state of the worker pool, at most one worker
is inside the external-encoder invocation (any two workers in the call
phase coincide), and the lock trace of a `convert` call is
lock–invoke–unlock on every exit path, the invocation-failure path
included. -/
theorem convert_serialized {n : Nat} (s : MuState n) (h : MuReachable s)
    (i j : Fin n) (hi : s.phase i = Phase.inCall) (hj : s.phase j = Phase.inCall)
    (o : InvokeOutcome) :
    i = j ∧ (convert o).2 = [LockEv.lock, LockEv.invoke, LockEv.unlock] :=
  ⟨(mutexInv_reachable h).2 i j hi hj, rfl⟩

theorem convert_serialized_witness :
    (0 : Fin 2) = 0 ∧
      (convert ⟨false, "boom", "exit status 1"⟩).2 =
        [LockEv.lock, LockEv.invoke, LockEv.unlock] :=
  convert_serialized muInCall
    (MuReachable.step
      (MuReachable.step MuReachable.init (MuStep.callConvert (MuState.init 2) 0 rfl))
      (MuStep.acquire muAfterCall 0 (by simp [muAfterCall]) rfl))
    0 0 (by simp [muInCall]) (by simp [muInCall]) ⟨false, "boom", "exit status 1"⟩

/-- C9: on a job set where every job succeeds, any pool schedule
(width > 1, modelled as any permutation `l` of the job set) yields a
final `Stats` exactly equal, field by field, to the width-1 sequential
run over `runs`. -/
theorem pool_width_deterministic (runs l : List JobRun)
    (_hall : ∀ r ∈ runs, r.convertOk = true) (hperm : l.Perm runs) :
    poolStats l = poolStats runs := by
  rw [poolStats_eq, poolStats_eq]
  have e : ∀ f : JobRun → Int, (l.map f).sum = (runs.map f).sum :=
    fun f => (hperm.map f).sum_eq
  rw [e dTotal, e dConv, e dFail, e dBefore, e dAfter]

theorem pool_width_deterministic_witness :
    poolStats [rOk2, rOk] = poolStats [rOk, rOk2] :=
  pool_width_deterministic [rOk, rOk2] [rOk2, rOk] (by decide)
    (List.Perm.swap rOk rOk2 [])

def cfg0 : Config := ⟨"/d", 80, false, false⟩

def entry0 : DirEntry := ⟨"a.png", false⟩

def entries0 : List DirEntry := [entry0]

def env0 : Env :=
  ⟨true, some entries0, true, some "n", fun _ => some 10, fun _ _ => true,
    fun _ => some 4⟩

def cfg5 : Config := ⟨"/d", 80, true, false⟩

def env5 : Env :=
  ⟨true, some entries0, true, none, fun _ => some 10, fun _ _ => false,
    fun _ => none⟩

def r5 : JobRun := ⟨⟨"/d/a.png", "/d/compressed/a.webp"⟩, some 10, false, none⟩

def entries4 : List DirEntry :=
  [⟨"notes.txt", false⟩, ⟨"compressed", true⟩, ⟨".hidden.png", false⟩]

def env4 : Env :=
  ⟨true, some entries4, true, none, fun _ => none, fun _ _ => true, fun _ => none⟩

def cfgR : Config := ⟨"/d", 80, true, true⟩

def rOkR : JobRun := ⟨⟨"/d/a.png", "/d/a.webp"⟩, some 100, true, some 40⟩

def entries10 : List DirEntry := [⟨"a.png", false⟩, ⟨"a.jpg", false⟩]

def env10 : Env :=
  ⟨true, some entries10, true, none, fun _ => some 10, fun _ _ => true,
    fun _ => some 4⟩

def produce10 : String → Int := fun s => if s = "/d/a.jpg" then 2 else 1

def fs10 : String → Option Int := fun p =>
  if p = "/d/a.png" then some 100 else if p = "/d/a.jpg" then some 50 else none

/-- C3 counterexample: with preview on, non-replace mode and the
non-affirmative answer "n", the run is cancelled with result ok (exit
code zero), yet the output subdirectory has already been created before
the prompt — so "no files are touched (in particular, no output
subdirectory is created)" fails on the code. -/
theorem cancel_touches_output_dir :
    confirmExecution (some "n") = false ∧
      (runModel cfg0 env0).2 = RunResult.ok ∧
      Event.mkdirOutput "/d/compressed" ∈ (runModel cfg0 env0).1 := by
  refine ⟨by decide, by decide, by decide⟩

/-- C3 (amended): when preview is not skipped, any confirmation response
other than an explicit affirmative cancels the run: the process exits
with code zero, no conversion is performed and no file is removed; the
output subdirectory, however, has already been created before the prompt
in non-replace mode (the only effect the trace may contain). -/
theorem cancel_is_graceful (cfg : Config) (env : Env) (entries : List DirEntry)
    (hskip : cfg.Skip = false) (hconf : confirmExecution env.confirmResp = false)
    (hff : env.ffmpegPresent = true) (hent : env.entries = some entries)
    (hjobs : (buildJobs cfg entries).isEmpty = false) (hmk : env.mkdirOk = true) :
    (runModel cfg env).2 = RunResult.ok ∧
      ∀ ev ∈ (runModel cfg env).1,
        ev = Event.mkdirOutput (joinPath cfg.WorkDir outputDir) := by
  unfold runModel
  rw [hent]
  simp only [hff, hjobs, hskip, hconf, hmk]
  cases hrep : cfg.Replace <;> simp

theorem cancel_is_graceful_witness :
    (runModel cfg0 env0).2 = RunResult.ok ∧
      ∀ ev ∈ (runModel cfg0 env0).1,
        ev = Event.mkdirOutput (joinPath cfg0.WorkDir outputDir) :=
  cancel_is_graceful cfg0 env0 entries0 rfl (by decide) rfl rfl (by decide) rfl

/-- C4: when ffmpeg is present, the directory is readable and zero
eligible files are found, `run` returns the discovery error with an
empty effect trace (no output subdirectory, no job) and the process
exit code is 1. -/
theorem no_eligible_is_fatal (cfg : Config) (env : Env) (entries : List DirEntry)
    (hff : env.ffmpegPresent = true) (hent : env.entries = some entries)
    (hempty : buildJobs cfg entries = []) :
    runModel cfg env =
        ([], RunResult.err "Nenhum arquivo elegível para conversão encontrado") ∧
      exitCode (runModel cfg env).2 = 1 := by
  unfold runModel
  rw [hent]
  simp [hff, hempty, exitCode]

theorem no_eligible_is_fatal_witness :
    runModel cfg0 env4 =
        ([], RunResult.err "Nenhum arquivo elegível para conversão encontrado") ∧
      exitCode (runModel cfg0 env4).2 = 1 :=
  no_eligible_is_fatal cfg0 env4 entries4 rfl rfl (by decide)

/-- The pool input produced by `run`: one `JobRun` per built job. -/
def runsOf (cfg : Config) (env : Env) (entries : List DirEntry) : List JobRun :=
  (buildJobs cfg entries).map (jobRun env)

/-- C5: a failing external invocation is absorbed locally: `Failed`
counts exactly the failed runs (at least this one), every job is still
processed (`Total` = job count), the failure is logged with the file's
base name, and `run` still returns ok (process exit code zero). -/
theorem encode_failure_absorbed (cfg : Config) (env : Env) (entries : List DirEntry)
    (r : JobRun) (hr : r ∈ runsOf cfg env entries) (hfail : r.convertOk = false)
    (hff : env.ffmpegPresent = true) (hent : env.entries = some entries)
    (hmk : env.mkdirOk = true) (hskip : cfg.Skip = true) :
    (poolStats (runsOf cfg env entries)).Failed =
        (((runsOf cfg env entries).filter fun x => !x.convertOk).length : Int) ∧
      1 ≤ ((runsOf cfg env entries).filter fun x => !x.convertOk).length ∧
      (poolStats (runsOf cfg env entries)).Total =
        ((runsOf cfg env entries).length : Int) ∧
      Event.reportFail (goBase r.job.Source) ∈ poolTrace cfg (runsOf cfg env entries) ∧
      exitCode (runModel cfg env).2 = 0 := by
  refine ⟨?_, ?_, ?_, ?_, ?_⟩
  · rw [poolStats_eq]
    exact sum_dFail_count _
  · exact List.length_pos_of_mem (List.mem_filter.mpr ⟨hr, by simp [hfail]⟩)
  · rw [poolStats_eq]
    exact sum_dTotal _
  · have hmem : Event.reportFail (goBase r.job.Source) ∈ jobTrace cfg r := by
      simp [jobTrace, hfail]
    exact List.mem_flatten.mpr ⟨jobTrace cfg r, List.mem_map_of_mem _ hr, hmem⟩
  · have hne : (buildJobs cfg entries).isEmpty = false := by
      obtain ⟨j, hj, _⟩ := List.mem_map.mp hr
      cases hb : buildJobs cfg entries with
      | nil => rw [hb] at hj; exact absurd hj (List.not_mem_nil j)
      | cons a l => simp
    unfold runModel
    rw [hent]
    simp [hff, hne, hskip, hmk, exitCode]

theorem encode_failure_absorbed_witness :
    (poolStats (runsOf cfg5 env5 entries0)).Failed =
        (((runsOf cfg5 env5 entries0).filter fun x => !x.convertOk).length : Int) ∧
      1 ≤ ((runsOf cfg5 env5 entries0).filter fun x => !x.convertOk).length ∧
      (poolStats (runsOf cfg5 env5 entries0)).Total =
        ((runsOf cfg5 env5 entries0).length : Int) ∧
      Event.reportFail (goBase r5.job.Source) ∈ poolTrace cfg5 (runsOf cfg5 env5 entries0) ∧
      exitCode (runModel cfg5 env5).2 = 0 :=
  encode_failure_absorbed cfg5 env5 entries0 r5 (by decide) rfl rfl rfl rfl rfl

/-- C6: in replace mode the worker emits a removal of the job's source
if and only if that job's conversion succeeded; moreover the trace of a
failed job leaves any filesystem contents unchanged. -/
theorem replace_deletes_iff_success (cfg : Config) (r : JobRun)
    (hrep : cfg.Replace = true) :
    (Event.removeSource r.job.Source ∈ jobTrace cfg r ↔ r.convertOk = true) ∧
      (r.convertOk = false →
        ∀ (produce : String → Int) (fs : String → Option Int),
          applyTrace produce fs (jobTrace cfg r) = fs) := by
  constructor
  · cases h : r.convertOk
    · simp [jobTrace, h]
    · simp [jobTrace, h, hrep]
  · intro h produce fs
    simp [jobTrace, h, applyTrace, applyEvent]

theorem replace_deletes_iff_success_witness :
    (Event.removeSource rOkR.job.Source ∈ jobTrace cfgR rOkR ↔
        rOkR.convertOk = true) ∧
      (rOkR.convertOk = false →
        ∀ (produce : String → Int) (fs : String → Option Int),
          applyTrace produce fs (jobTrace cfgR rOkR) = fs) :=
  replace_deletes_iff_success cfgR rOkR rfl

/-- C7: the trace of one job is exactly the sequence stat-source →
encode → stat-destination → optional delete → report on success, and
stat-source → encode → failure report on failure; in particular the
destination size is read if and only if the encoder returned success
for that file, and strictly after the encode step. -/
theorem job_step_order (cfg : Config) (r : JobRun) :
    jobTrace cfg r =
        (if r.convertOk then
          [Event.statSource r.job.Source,
              Event.encode r.job.Source r.job.Dest r.convertOk,
              Event.statDest r.job.Dest] ++
            (if cfg.Replace then [Event.removeSource r.job.Source] else []) ++
            [Event.reportOk (goBase r.job.Source) (goBase r.job.Dest)]
        else
          [Event.statSource r.job.Source,
            Event.encode r.job.Source r.job.Dest r.convertOk,
            Event.reportFail (goBase r.job.Source)]) ∧
      (Event.statDest r.job.Dest ∈ jobTrace cfg r ↔ r.convertOk = true) := by
  cases h : r.convertOk
  · constructor
    · simp [jobTrace, h]
    · simp [jobTrace, h]
  · constructor
    · simp [jobTrace, h]
    · simp [jobTrace, h]

/-- C8: the job-building loop turns a directory entry into a conversion
job exactly when it is a non-directory whose name does not start with a
dot and whose extension, compared case-insensitively, is one of png,
jpg, jpeg, gif, avif — i.e. the loop is the filter/map by the spec's
eligibility predicate. -/
theorem discovery_filter (cfg : Config) (entries : List DirEntry) :
    buildJobs cfg entries = (entries.filter eligibleSpec).map (mkJob cfg) := by
  have heq : ∀ e : DirEntry,
      eligibleSpec e = (!e.isDir && !(strStartsWith e.name ".") && isImage e.name) :=
    fun e => rfl
  induction entries with
  | nil => rfl
  | cons e t ih =>
    cases h1 : e.isDir
    · cases h2 : strStartsWith e.name "."
      · cases h3 : isImage e.name
        · simp [buildJobs, List.filter_cons, heq, h1, h2, h3, ih]
        · simp [buildJobs, List.filter_cons, heq, h1, h2, h3, ih, mkJob]
      · simp [buildJobs, List.filter_cons, heq, h1, h2, ih]
    · simp [buildJobs, List.filter_cons, heq, h1, ih]

/-- C10: two names with the same base (equal after trimming their
extensions) are mapped to the same destination path; concretely, for
`a.png` and `a.jpg` in replace mode both jobs target `/d/a.webp`, the
later conversion's output overwrites the earlier one, and after both
jobs succeed both sources are deleted while the single shared output
remains. -/
theorem same_basename_one_output (cfg : Config) (n1 n2 : String)
    (hsame : trimSuffix n1 (goExt n1) = trimSuffix n2 (goExt n2)) :
    destPath cfg n1 = destPath cfg n2 ∧
      (buildJobs cfgR entries10).map Job.Dest = ["/d/a.webp", "/d/a.webp"] ∧
      applyTrace produce10 fs10
          (poolTrace cfgR ((buildJobs cfgR entries10).map (jobRun env10)))
          "/d/a.png" = none ∧
      applyTrace produce10 fs10
          (poolTrace cfgR ((buildJobs cfgR entries10).map (jobRun env10)))
          "/d/a.jpg" = none ∧
      applyTrace produce10 fs10
          (poolTrace cfgR ((buildJobs cfgR entries10).map (jobRun env10)))
          "/d/a.webp" = some (produce10 "/d/a.jpg") := by
  refine ⟨?_, by decide, by decide, by decide, by decide⟩
  unfold destPath destName
  rw [hsame]

theorem same_basename_one_output_witness :
    destPath cfgR "a.png" = destPath cfgR "a.jpg" ∧
      (buildJobs cfgR entries10).map Job.Dest = ["/d/a.webp", "/d/a.webp"] ∧
      applyTrace produce10 fs10
          (poolTrace cfgR ((buildJobs cfgR entries10).map (jobRun env10)))
          "/d/a.png" = none ∧
      applyTrace produce10 fs10
          (poolTrace cfgR ((buildJobs cfgR entries10).map (jobRun env10)))
          "/d/a.jpg" = none ∧
      applyTrace produce10 fs10
          (poolTrace cfgR ((buildJobs cfgR entries10).map (jobRun env10)))
          "/d/a.webp" = some (produce10 "/d/a.jpg") :=
  same_basename_one_output cfgR "a.png" "a.jpg" (by decide)
